import Mathlib

set_option maxRecDepth 200000

/-!
# Verification of the ship-call planner core (`src/planner.py`)

Shallow embedding of the schedule computation and reconciliation engine of
the planner:

* dates: Python `datetime` values at whole-day granularity are embedded as
  `Int` (days since an arbitrary epoch; in the concrete scenarios day 0 is
  2026-01-01).  `datetime + timedelta(days=n)` is `+ n` and date comparison
  is integer comparison, which is exact for this code (all stored times are
  midnight).
* date strings: the plan stores arrival/departure as strings that are either
  empty, a well-formed `YYYY-MM-DD` date, or malformed; the type `DStr`
  embeds these three classes (one representative per calendar date, i.e.
  date strings are taken in canonical zero-padded form, which is the form
  the service itself always writes via `_fmt_date`).  Python truthiness of
  such a string (`if arrival:`) is `DStr.truthy`.
* `datetime.strptime(value, "%Y-%m-%d")` is `parseDate`, failing on the
  empty and on malformed strings.
* timing rules: the `transition_days` / `stay_days` tables hold non-negative
  integers (`set_transition` / `set_stay` reject negative values and the
  defaults are 0/2 and 1), so they are embedded as `Nat`-valued functions.
* stateful methods that mutate the plan in place and may raise are embedded
  as functions returning `Res Plan`: `Res.ok p` for a normal return and
  `Res.err e p` for an exception raised with the in-memory plan left in
  state `p` (Python exceptions do not roll mutations back).
* the unbounded `while` loop of `create_plan` is embedded with explicit
  fuel: `none` means the loop is still running after `fuel` iterations.

Note on `idx // route_len`: Python raises `ZeroDivisionError` when the route
is empty (such plans cannot be produced by `create_plan`, which insists on
at least two ports); Lean's `Nat` division totalises this as `idx / 0 = 0`,
so theorems about reconciliation take `0 < plan.route.length` where the
distinction could matter.
-/

/-- A stored date string: empty, malformed, or a canonical `YYYY-MM-DD`
date, the latter identified with its day number. -/
inductive DStr where
  | empty : DStr
  | malformed : DStr
  | date : Int → DStr
deriving DecidableEq, Repr

/-- Python truthiness of the string: only the empty string is falsy. -/
def DStr.truthy : DStr → Bool
  | .empty => false
  | _ => true

/-- Whether the string is a well-formed date. -/
def DStr.isDate : DStr → Bool
  | .date _ => true
  | _ => false

/-- The day number of a date string (0 for non-dates; only used on dates). -/
def dateVal : DStr → Int
  | .date d => d
  | _ => 0

/-- The `ValueError`s the service can raise, by site. -/
inductive PErr where
  | unknownShip : PErr
  | routeTooShort : PErr
  | unknownPort : PErr
  | notFound : PErr
  | invalidIndex : PErr
  | parseError : PErr
  | halfDates : PErr
  | depBeforeArrival : PErr
deriving DecidableEq, Repr

/-- `PlannerService._parse_date`: `datetime.strptime(value, "%Y-%m-%d")`,
raising on anything that is not a well-formed date. -/
def parseDate : DStr → Except PErr Int
  | .date d => .ok d
  | _ => .error .parseError

/-- The `Stop` dataclass. -/
structure Stop where
  port : String
  arrival : DStr
  departure : DStr
  skipped : Bool
deriving DecidableEq, Repr

/-- The `Plan` dataclass (as stored: `frozen_rows` normalised to a list). -/
structure Plan where
  id : Nat
  ship : String
  route : List String
  start_date : DStr
  end_date : DStr
  stops : List Stop
  frozen_rows : List Nat
deriving DecidableEq, Repr

/-- The configuration the service reads from `db.data`: ship and port
registries and the timing rules.  `transition` and `stay` are total
non-negative tables (`stay` already includes the `.get(port, 1)` default). -/
structure Config where
  ships : List String
  ports : List String
  transition : String → String → Nat
  stay : String → Nat

/-- Result of a mutating service call: either a normal return or an
exception `e` raised with the in-memory plan left in state `p`. -/
inductive Res (α : Type) where
  | ok : α → Res α
  | err : PErr → α → Res α
deriving DecidableEq, Repr

/-- The in-memory state after the call, whether or not it raised. -/
def Res.state {α : Type} : Res α → α
  | .ok a => a
  | .err _ a => a

/-- Whether the call returned normally. -/
def Res.isOk {α : Type} : Res α → Bool
  | .ok _ => true
  | .err _ _ => false

/-- `PLAN_HORIZON_DAYS`. -/
def PLAN_HORIZON_DAYS : Nat := 365

/-- The generation loop of `create_plan` (lines 133-149): state is the list
of stops built so far, `current_departure` and the cycling route index;
`fuel` bounds the number of iterations modelled, `none` meaning the loop
has not finished within that many iterations. -/
def createPlanGo (cfg : Config) (route : List String) (limit : Int) :
    Nat → List Stop → Int → Nat → Option (List Stop)
  | 0, _, _, _ => none
  | fuel+1, stops, currentDeparture, idx =>
    if currentDeparture < limit then
      let port := route.getD (idx % route.length) ""
      let arrival : Int :=
        match stops.getLast? with
        | none => currentDeparture
        | some prev => currentDeparture + (cfg.transition prev.port port : Int)
      let departure := arrival + (cfg.stay port : Int)
      createPlanGo cfg route limit fuel
        (stops ++ [⟨port, .date arrival, .date departure, false⟩]) departure (idx + 1)
    else
      some stops

/-- `PlannerService.create_plan` (lines 120-166): validates ship, route
length and ports, parses the start date, runs the generation loop, and
assembles the plan.  `pid` stands for the store-assigned `next_plan_id`;
`.ok none` means the generation loop had not finished after `fuel`
iterations. -/
def create_plan (cfg : Config) (ship : String) (route : List String)
    (start_date : DStr) (pid : Nat) (fuel : Nat) : Except PErr (Option Plan) :=
  if ship ∈ cfg.ships then
    if route.length < 2 then .error .routeTooShort
    else if route.all (· ∈ cfg.ports) then
      match parseDate start_date with
      | .error e => .error e
      | .ok start =>
        let limit := start + (PLAN_HORIZON_DAYS : Int)
        match createPlanGo cfg route limit fuel [] start 0 with
        | none => .ok none
        | some stops =>
          .ok (some ⟨pid, ship, route, start_date, .date limit, stops, []⟩)
    else .error .unknownPort
  else .error .unknownShip

/-- The arrival computation shared by the generator and the sweep: the
running departure when there is no previous port yet, and the running
departure plus the transition time otherwise. -/
def chainArr (cfg : Config) (prevPort : Option String) (d : Int) (port : String) : Int :=
  match prevPort with
  | none => d
  | some p => d + (cfg.transition p port : Int)

/-- The generation recurrence, as a checkable predicate: starting from
previous port `prevPort` and running departure `d`, every stop is
un-skipped, its arrival is `d` for the first stop of a plan (`prevPort =
none`) and `d + transition(prevPort, port)` otherwise, and its departure is
`arrival + stay(port)`; the departure then becomes the running departure
for the rest. -/
def chainFrom (cfg : Config) : Option String → Int → List Stop → Bool
  | _, _, [] => true
  | prevPort, d, s :: rest =>
    let a : Int := chainArr cfg prevPort d s.port
    decide (s.skipped = false) && decide (s.arrival = DStr.date a) &&
      decide (s.departure = DStr.date (a + (cfg.stay s.port : Int))) &&
      chainFrom cfg (some s.port) (a + (cfg.stay s.port : Int)) rest

/-- Classification of a stop as frozen (lines 249-254): its period (row)
index is in the plan's frozen set and it already carries both dates or is
skipped.  Computed on the stop sequence as it was before the edit pass. -/
def frozenIdx (routeLen : Nat) (frozenRows : List Nat) (idx : Nat) (s : Stop) : Bool :=
  decide (idx / routeLen ∈ frozenRows) &&
    ((s.arrival.truthy && s.departure.truthy) || s.skipped)

/-- The `frozen_indices` set of a plan, as a predicate on stop indices. -/
def frozenSet (plan : Plan) : Nat → Bool := fun idx =>
  match plan.stops[idx]? with
  | some s => frozenIdx plan.route.length plan.frozen_rows idx s
  | none => false

/-- One iteration of the edit-application loop of
`update_plan_from_manual_table` (lines 256-287): how the stop at `idx` is
transformed by the batch, and whether it becomes anchored (locked).
Mirrors the source order: untouched when absent from the batch or frozen;
an all-empty edit clears the dates and sets `skipped` when the stop held a
date, and merely resets `skipped` otherwise; a one-sided edit is rejected;
otherwise both dates are parsed, `departure < arrival` is rejected, and the
submitted dates are stored, the stop becoming locked when they differ from
the stored ones. -/
def stepStop (mm : Nat → Option (DStr × DStr)) (frozen : Nat → Bool)
    (idx : Nat) (s : Stop) : Except PErr (Stop × Bool) :=
  match mm idx with
  | none => .ok (s, false)
  | some (arrival, departure) =>
    if frozen idx then .ok (s, false)
    else if !arrival.truthy && !departure.truthy then
      if s.arrival.truthy || s.departure.truthy then
        .ok ({ s with arrival := .empty, departure := .empty, skipped := true }, false)
      else
        .ok ({ s with skipped := false }, false)
    else if !arrival.truthy || !departure.truthy then .error .halfDates
    else
      match parseDate arrival with
      | .error e => .error e
      | .ok a =>
        match parseDate departure with
        | .error e => .error e
        | .ok d =>
          if d < a then .error .depBeforeArrival
          else
            .ok ({ s with arrival := arrival, departure := departure, skipped := false },
              !(decide (arrival = s.arrival) && decide (departure = s.departure)))

/-- The edit-application loop over the whole stop sequence, collecting the
locked indices.  On an exception the partially rewritten sequence (stops
before the offending index already edited, the rest untouched) is carried
in the error, mirroring in-place mutation. -/
def applyManualGo (mm : Nat → Option (DStr × DStr)) (frozen : Nat → Bool) :
    Nat → List Stop → Except (PErr × List Stop) (List Stop × List Nat)
  | _, [] => .ok ([], [])
  | idx, s :: rest =>
    match stepStop mm frozen idx s with
    | .error e => .error (e, s :: rest)
    | .ok (s', lock) =>
      match applyManualGo mm frozen (idx + 1) rest with
      | .error (e, rest') => .error (e, s' :: rest')
      | .ok (rest', locks) => .ok (s' :: rest', if lock then idx :: locks else locks)

/-- The reconciliation sweep of `update_plan_from_manual_table` (lines
289-318): a left-to-right pass with running `prevPort` / `currentDeparture`.
Skipped stops are passed over without advancing the chain; frozen stops
pass their dates through and re-anchor the chain on their parsed departure;
locked stops likewise keep their submitted dates; every other stop is
re-derived from the chain.  Errors carry the partially rewritten list. -/
def sweepGo (cfg : Config) (frozen locked : Nat → Bool) :
    Nat → Option String → Int → List Stop → Except (PErr × List Stop) (List Stop)
  | _, _, _, [] => .ok []
  | idx, prevPort, currentDeparture, s :: rest =>
    if s.skipped then
      match sweepGo cfg frozen locked (idx + 1) prevPort currentDeparture rest with
      | .error (e, rest') => .error (e, s :: rest')
      | .ok rest' => .ok (s :: rest')
    else if frozen idx then
      match parseDate s.departure with
      | .error e => .error (e, s :: rest)
      | .ok d =>
        match sweepGo cfg frozen locked (idx + 1) (some s.port) d rest with
        | .error (e, rest') => .error (e, s :: rest')
        | .ok rest' => .ok (s :: rest')
    else if locked idx then
      match parseDate s.arrival with
      | .error e => .error (e, s :: rest)
      | .ok _ =>
        match parseDate s.departure with
        | .error e => .error (e, s :: rest)
        | .ok d =>
          match sweepGo cfg frozen locked (idx + 1) (some s.port) d rest with
          | .error (e, rest') => .error (e, s :: rest')
          | .ok rest' => .ok (s :: rest')
    else
      match sweepGo cfg frozen locked (idx + 1) (some s.port)
          (chainArr cfg prevPort currentDeparture s.port + (cfg.stay s.port : Int)) rest with
      | .error (e, rest') =>
        .error (e, { s with arrival := DStr.date (chainArr cfg prevPort currentDeparture s.port),
                            departure := DStr.date (chainArr cfg prevPort currentDeparture s.port +
                              (cfg.stay s.port : Int)) } :: rest')
      | .ok rest' =>
        .ok ({ s with arrival := DStr.date (chainArr cfg prevPort currentDeparture s.port),
                      departure := DStr.date (chainArr cfg prevPort currentDeparture s.port +
                        (cfg.stay s.port : Int)) } :: rest')

/-- `PlannerService.update_plan_from_manual_table` (lines 243-321): classify
frozen stops from the pre-edit sequence, apply the edit batch, then run the
reconciliation sweep from the plan's start date. -/
def update_plan_from_manual_table (cfg : Config) (plan : Plan)
    (mm : Nat → Option (DStr × DStr)) : Res Plan :=
  let frozen := frozenSet plan
  match applyManualGo mm frozen 0 plan.stops with
  | .error (e, stops') => .err e { plan with stops := stops' }
  | .ok (stops1, locks) =>
    match parseDate plan.start_date with
    | .error e => .err e { plan with stops := stops1 }
    | .ok start =>
      match sweepGo cfg frozen (fun i => decide (i ∈ locks)) 0 none start stops1 with
      | .error (e, stops2) => .err e { plan with stops := stops2 }
      | .ok stops2 => .ok { plan with stops := stops2 }

/-- `PlannerService._apply_shift` (lines 198-203): add `shift` days to the
arrival and departure of every stop of the list, parsing the stored strings;
the first stop without both dates raises, the stops before it staying
shifted. -/
def applyShiftGo (shift : Int) : List Stop → Except (PErr × List Stop) (List Stop)
  | [] => .ok []
  | s :: rest =>
    match parseDate s.arrival with
    | .error e => .error (e, s :: rest)
    | .ok a =>
      match parseDate s.departure with
      | .error e => .error (e, s :: rest)
      | .ok d =>
        let s' := { s with arrival := DStr.date (a + shift), departure := DStr.date (d + shift) }
        match applyShiftGo shift rest with
        | .error (e, rest') => .error (e, s' :: rest')
        | .ok rest' => .ok (s' :: rest')

/-- A stop with both dates shifted by `n` days (description of what
`_apply_shift` does to a fully dated stop). -/
def shiftStop (n : Int) (s : Stop) : Stop :=
  { s with arrival := DStr.date (dateVal s.arrival + n),
           departure := DStr.date (dateVal s.departure + n) }

/-- `PlannerService.manual_update_stop` (lines 205-241): the single-stop
edit path.  The index is checked, the current dates are parsed, each
supplied (truthy) field is parsed and then written, the resulting pair is
re-parsed and `departure < arrival` rejected, and with `propagate` the day
delta between old and new departure (falling back to the arrival delta)
is added to every following stop.  As in the source, the rejection checks
after the field writes leave the written fields in place. -/
def manual_update_stop (plan : Plan) (stop_index : Nat)
    (arrival departure : DStr) (propagate : Bool) : Res Plan :=
  match plan.stops[stop_index]? with
  | none => .err .invalidIndex plan
  | some s =>
    match parseDate s.arrival with
    | .error e => .err e plan
    | .ok old_arrival =>
      match parseDate s.departure with
      | .error e => .err e plan
      | .ok old_departure =>
        match (if arrival.truthy then
                 match parseDate arrival with
                 | .error e => .error e
                 | .ok _ => .ok { s with arrival := arrival }
               else (.ok s : Except PErr Stop)) with
        | .error e => .err e plan
        | .ok s1 =>
          match (if departure.truthy then
                   match parseDate departure with
                   | .error e => .error e
                   | .ok _ => .ok { s1 with departure := departure }
                 else (.ok s1 : Except PErr Stop)) with
          | .error e => .err e { plan with stops := plan.stops.set stop_index s1 }
          | .ok s2 =>
            match parseDate s2.arrival with
            | .error e => .err e { plan with stops := plan.stops.set stop_index s2 }
            | .ok new_arrival =>
              match parseDate s2.departure with
              | .error e => .err e { plan with stops := plan.stops.set stop_index s2 }
              | .ok new_departure =>
                if new_departure < new_arrival then
                  .err .depBeforeArrival { plan with stops := plan.stops.set stop_index s2 }
                else
                  let stops2 := plan.stops.set stop_index s2
                  if propagate then
                    let shift0 := new_departure - old_departure
                    let shift := if shift0 = 0 then new_arrival - old_arrival else shift0
                    if shift ≠ 0 then
                      match applyShiftGo shift (stops2.drop (stop_index + 1)) with
                      | .error (e, rest') =>
                        .err e { plan with stops := stops2.take (stop_index + 1) ++ rest' }
                      | .ok rest' =>
                        .ok { plan with stops := stops2.take (stop_index + 1) ++ rest' }
                    else .ok { plan with stops := stops2 }
                  else .ok { plan with stops := stops2 }

/-- The default plan used by `planOfRes` when the result is not a plan. -/
def dummyPlan : Plan := ⟨0, "", [], .empty, .empty, [], []⟩

/-- Project the plan out of a `create_plan` result. -/
def planOfRes : Except PErr (Option Plan) → Plan
  | .ok (some p) => p
  | _ => dummyPlan

/-- The spec's scenario configuration: transition 2 days between distinct
ports (0 to itself), stay 1 day everywhere. -/
def scenCfg : Config :=
  ⟨["ship"], ["Vladivostok", "Korsakov"],
   fun p q => if p = q then 0 else 2, fun _ => 1⟩

/-- The spec's scenario route. -/
def scenRoute : List String := ["Vladivostok", "Korsakov"]

/-- The plan generated in the spec's scenario: route
`[Vladivostok, Korsakov]`, start 2026-01-01 (day 0). -/
def scenPlan : Plan := planOfRes (create_plan scenCfg "ship" scenRoute (DStr.date 0) 1 400)

/-! ## Basic lemmas -/

theorem parseDate_ok_iff {s : DStr} {d : Int} : parseDate s = .ok d ↔ s = .date d := by
  cases s <;> simp [parseDate]

theorem parseDate_date (d : Int) : parseDate (DStr.date d) = .ok d := rfl

/-! ## The generation loop builds a chain -/

theorem createPlanGo_chain (cfg : Config) (route : List String) (limit : Int) :
    ∀ fuel acc d idx out,
      createPlanGo cfg route limit fuel acc d idx = some out →
      ∃ tail, out = acc ++ tail ∧
        chainFrom cfg (acc.getLast?.map Stop.port) d tail = true := by
  intro fuel
  induction fuel with
  | zero =>
    intro acc d idx out h
    simp [createPlanGo] at h
  | succ n ih =>
    intro acc d idx out h
    rw [createPlanGo] at h
    by_cases hd : d < limit
    · rw [if_pos hd] at h
      obtain ⟨tail, hout, hchain⟩ := ih _ _ _ _ h
      set port := route.getD (idx % route.length) "" with hport
      refine ⟨⟨port, .date (chainArr cfg (acc.getLast?.map Stop.port) d port),
               .date (chainArr cfg (acc.getLast?.map Stop.port) d port +
                 (cfg.stay port : Int)), false⟩ :: tail, ?_, ?_⟩
      · rw [hout]
        cases hlast : acc.getLast? with
        | none => simp [chainArr, hlast]
        | some prev => simp [chainArr, hlast]
      · rw [chainFrom]
        simp only [Bool.and_eq_true, decide_eq_true_eq]
        refine ⟨⟨⟨trivial, trivial⟩, trivial⟩, ?_⟩
        have hlast2 : ∀ st : Stop,
            (acc ++ [st]).getLast?.map Stop.port = some st.port := by
          intro st; rw [List.getLast?_concat]; rfl
        cases hlast : acc.getLast? with
        | none =>
          simp only [chainArr]
          rw [hlast] at hchain
          rw [hlast2] at hchain
          simpa [chainArr, hlast] using hchain
        | some prev =>
          simp only [chainArr]
          rw [hlast] at hchain
          rw [hlast2] at hchain
          simpa [chainArr, hlast] using hchain
    · rw [if_neg hd] at h
      exact ⟨[], by simpa using h.symm, rfl⟩

theorem create_plan_fields {cfg : Config} {ship : String} {route : List String}
    {sd : DStr} {pid fuel : Nat} {plan : Plan}
    (h : create_plan cfg ship route sd pid fuel = .ok (some plan)) :
    ∃ start, parseDate sd = .ok start ∧ plan.start_date = sd ∧
      plan.route = route ∧ plan.frozen_rows = [] ∧
      chainFrom cfg none start plan.stops = true := by
  unfold create_plan at h
  by_cases hship : ship ∈ cfg.ships
  · rw [if_pos hship] at h
    by_cases hlen : route.length < 2
    · rw [if_pos hlen] at h; cases h
    · rw [if_neg hlen] at h
      by_cases hports : route.all (· ∈ cfg.ports)
      · rw [if_pos hports] at h
        split at h
        · cases h
        · rename_i start hsd
          simp only [PLAN_HORIZON_DAYS] at h
          split at h
          · exact absurd h (by simp)
          · rename_i stops hgo
            obtain ⟨tail, hout, hchain⟩ :=
              createPlanGo_chain cfg route _ fuel [] start 0 stops hgo
            simp only [List.nil_append] at hout
            subst hout
            injection h with h
            injection h with h
            subst h
            exact ⟨start, hsd, rfl, rfl, rfl, by simpa using hchain⟩
      · rw [if_neg hports] at h; cases h
  · rw [if_neg hship] at h; cases h

theorem chainFrom_adjacent (cfg : Config) :
    ∀ (l : List Stop) (pp : Option String) (d : Int),
      chainFrom cfg pp d l = true →
      ∀ i si sj, l[i]? = some si → l[i+1]? = some sj →
        ∃ di aj, si.departure = .date di ∧ sj.arrival = .date aj ∧ di ≤ aj := by
  intro l
  induction l with
  | nil => intro pp d h i si sj hsi; simp at hsi
  | cons s rest ih =>
    intro pp d h i si sj hsi hsj
    rw [chainFrom] at h
    simp only [Bool.and_eq_true, decide_eq_true_eq] at h
    obtain ⟨⟨⟨hskip, harr⟩, hdep⟩, hrest⟩ := h
    cases i with
    | zero =>
      simp only [List.getElem?_cons_zero, Option.some.injEq] at hsi
      subst hsi
      simp only [List.getElem?_cons_succ] at hsj
      cases rest with
      | nil => simp at hsj
      | cons s2 rest2 =>
        rw [chainFrom] at hrest
        simp only [Bool.and_eq_true, decide_eq_true_eq] at hrest
        obtain ⟨⟨⟨_, harr2⟩, _⟩, _⟩ := hrest
        simp only [List.getElem?_cons_zero, Option.some.injEq] at hsj
        subst hsj
        refine ⟨_, _, hdep, harr2, ?_⟩
        simp only [chainArr]
        have := Int.natCast_nonneg (cfg.transition s.port s2.port)
        omega
    | succ n =>
      simp only [List.getElem?_cons_succ] at hsi hsj
      exact ih _ _ hrest n si sj hsi hsj

theorem chainFrom_shape (cfg : Config) :
    ∀ (l : List Stop) (pp : Option String) (d : Int),
      chainFrom cfg pp d l = true →
      ∀ s ∈ l, s.skipped = false ∧ ∃ a dd, s.arrival = .date a ∧
        s.departure = .date dd ∧ a ≤ dd := by
  intro l
  induction l with
  | nil => intro pp d h s hs; simp at hs
  | cons s0 rest ih =>
    intro pp d h s hs
    rw [chainFrom] at h
    simp only [Bool.and_eq_true, decide_eq_true_eq] at h
    obtain ⟨⟨⟨hskip, harr⟩, hdep⟩, hrest⟩ := h
    rcases List.mem_cons.mp hs with rfl | hmem
    · refine ⟨hskip, _, _, harr, hdep, ?_⟩
      have := Int.natCast_nonneg (cfg.stay s.port)
      omega
    · exact ih _ _ hrest s hmem

/-! ## Non-termination of the generation loop on all-zero rules -/

theorem createPlanGo_zero_stuck (cfg : Config)
    (htr : ∀ p q, cfg.transition p q = 0) (hst : ∀ p, cfg.stay p = 0)
    (route : List String) (limit : Int) :
    ∀ fuel acc (d : Int) idx, d < limit →
      createPlanGo cfg route limit fuel acc d idx = none := by
  intro fuel
  induction fuel with
  | zero => intro acc d idx hd; rfl
  | succ n ih =>
    intro acc d idx hd
    cases hlast : acc.getLast? with
    | none =>
      rw [createPlanGo, if_pos hd]
      simp only [hlast, hst, Nat.cast_zero, add_zero]
      exact ih _ d _ hd
    | some prev =>
      rw [createPlanGo, if_pos hd]
      simp only [hlast, htr, hst, Nat.cast_zero, add_zero]
      exact ih _ d _ hd

/-! ## State projections for the reconciliation loops -/

/-- The stop list carried by an edit-loop result (the in-memory state,
also on exception). -/
def amState : Except (PErr × List Stop) (List Stop × List Nat) → List Stop
  | .error (_, l) => l
  | .ok (l, _) => l

/-- The stop list carried by a sweep result (the in-memory state, also on
exception). -/
def swState : Except (PErr × List Stop) (List Stop) → List Stop
  | .error (_, l) => l
  | .ok l => l

theorem stepStop_untouched {mm : Nat → Option (DStr × DStr)} {fr : Nat → Bool}
    {idx : Nat} {s : Stop} (h : mm idx = none ∨ fr idx = true) :
    stepStop mm fr idx s = .ok (s, false) := by
  rcases h with h | h
  · simp [stepStop, h]
  · cases hmm : mm idx with
    | none => simp [stepStop, hmm]
    | some ad => obtain ⟨a, d⟩ := ad; simp [stepStop, hmm, h]

theorem amState_cons (mm : Nat → Option (DStr × DStr)) (fr : Nat → Bool)
    (idx : Nat) (s : Stop) (rest : List Stop) :
    amState (applyManualGo mm fr idx (s :: rest)) =
      (match stepStop mm fr idx s with
       | .error _ => s :: rest
       | .ok (s', _) => s' :: amState (applyManualGo mm fr (idx + 1) rest)) := by
  rw [applyManualGo]
  cases stepStop mm fr idx s with
  | error e => rfl
  | ok sl =>
    obtain ⟨s', lock⟩ := sl
    cases applyManualGo mm fr (idx + 1) rest with
    | error pr => obtain ⟨e, rest'⟩ := pr; rfl
    | ok pr => obtain ⟨rest', locks⟩ := pr; rfl

theorem applyManualGo_frame {mm : Nat → Option (DStr × DStr)} {fr : Nat → Bool} :
    ∀ (l : List Stop) (idx k : Nat),
      (mm (idx + k) = none ∨ fr (idx + k) = true) →
      (amState (applyManualGo mm fr idx l))[k]? = l[k]? := by
  intro l
  induction l with
  | nil => intro idx k h; rfl
  | cons s rest ih =>
    intro idx k h
    rw [amState_cons]
    cases hstep : stepStop mm fr idx s with
    | error e => rfl
    | ok sl =>
      obtain ⟨s', lock⟩ := sl
      cases k with
      | zero =>
        have hu := stepStop_untouched (s := s) (by simpa using h)
        rw [hstep] at hu
        injection hu with hu
        injection hu with hu1 hu2
        subst hu1
        simp
      | succ n =>
        simp only [List.getElem?_cons_succ]
        have h' : mm (idx + 1 + n) = none ∨ fr (idx + 1 + n) = true := by
          have e : idx + 1 + n = idx + (n + 1) := by omega
          rw [e]; exact h
        exact ih (idx + 1) n h'

theorem applyManualGo_length {mm : Nat → Option (DStr × DStr)} {fr : Nat → Bool} :
    ∀ (l : List Stop) (idx : Nat),
      (amState (applyManualGo mm fr idx l)).length = l.length := by
  intro l
  induction l with
  | nil => intro idx; rfl
  | cons s rest ih =>
    intro idx
    rw [amState_cons]
    cases hstep : stepStop mm fr idx s with
    | error e => rfl
    | ok sl =>
      obtain ⟨s', lock⟩ := sl
      simp [ih (idx + 1)]

theorem stepStop_lock {mm : Nat → Option (DStr × DStr)} {fr : Nat → Bool}
    {idx : Nat} {s s' : Stop} (h : stepStop mm fr idx s = .ok (s', true)) :
    (mm idx).isSome = true ∧
      ∃ a d, s'.arrival = .date a ∧ s'.departure = .date d ∧ a ≤ d ∧
        s'.skipped = false := by
  unfold stepStop at h
  split at h
  · injection h with h; injection h with h1 h2; cases h2
  · rename_i arrival departure hmm
    refine ⟨by rw [hmm]; rfl, ?_⟩
    split at h
    · injection h with h; injection h with h1 h2; cases h2
    · split at h
      · split at h
        · injection h with h; injection h with h1 h2; cases h2
        · injection h with h; injection h with h1 h2; cases h2
      · split at h
        · cases h
        · split at h
          · cases h
          · rename_i a hpa
            split at h
            · cases h
            · rename_i d hpd
              split at h
              · cases h
              · rename_i hlt
                injection h with h
                injection h with h1 h2
                subst h1
                have ha := parseDate_ok_iff.mp hpa
                have hd := parseDate_ok_iff.mp hpd
                exact ⟨a, d, ha, hd, by omega, rfl⟩

theorem applyManualGo_locks {mm : Nat → Option (DStr × DStr)} {fr : Nat → Bool} :
    ∀ (l : List Stop) (idx : Nat) (l' : List Stop) (locks : List Nat),
      applyManualGo mm fr idx l = .ok (l', locks) →
      (∀ j ∈ locks, idx ≤ j ∧ (mm j).isSome = true) ∧
      (∀ k s', l'[k]? = some s' → (idx + k) ∈ locks →
        ∃ a d, s'.arrival = .date a ∧ s'.departure = .date d ∧ a ≤ d ∧
          s'.skipped = false) := by
  intro l
  induction l with
  | nil =>
    intro idx l' locks h
    injection h with h
    injection h with h1 h2
    subst h1; subst h2
    exact ⟨fun j hj => by simp at hj, fun k s' hk => by simp at hk⟩
  | cons s rest ih =>
    intro idx l' locks h
    rw [applyManualGo] at h
    cases hstep : stepStop mm fr idx s with
    | error e => rw [hstep] at h; cases h
    | ok sl =>
      obtain ⟨s', lock⟩ := sl
      rw [hstep] at h
      cases hrec : applyManualGo mm fr (idx + 1) rest with
      | error pr => rw [hrec] at h; cases h
      | ok pr =>
        obtain ⟨rest', locks'⟩ := pr
        rw [hrec] at h
        injection h with h
        injection h with h1 h2
        subst h1; subst h2
        obtain ⟨ihbound, ihprop⟩ := ih (idx + 1) rest' locks' hrec
        constructor
        · intro j hj
          cases lock with
          | true =>
            rcases List.mem_cons.mp hj with rfl | hj'
            · exact ⟨le_refl _, (stepStop_lock hstep).1⟩
            · have := ihbound j hj'
              exact ⟨by omega, this.2⟩
          | false =>
            have := ihbound j (by simpa using hj)
            exact ⟨by omega, this.2⟩
        · intro k t hk hmem
          cases k with
          | zero =>
            simp only [List.getElem?_cons_zero, Option.some.injEq] at hk
            subst hk
            cases lock with
            | true => exact (stepStop_lock hstep).2
            | false =>
              have := (ihbound (idx + 0) (by simpa using hmem)).1
              omega
          | succ n =>
            simp only [List.getElem?_cons_succ] at hk
            have hmem' : (idx + 1) + n ∈ locks' := by
              have e : idx + 1 + n = idx + (n + 1) := by omega
              rw [e]
              cases lock with
              | true =>
                rcases List.mem_cons.mp hmem with heq | hm
                · omega
                · have e2 : idx + (n + 1) = idx + 1 + n := by omega
                  rw [e2]; rw [e2] at hm; exact hm
              | false => simpa using hmem
            exact ihprop n t hk hmem'

theorem applyManualGo_empty :
    ∀ (l : List Stop) (fr : Nat → Bool) (idx : Nat),
      applyManualGo (fun _ => none) fr idx l = .ok (l, []) := by
  intro l
  induction l with
  | nil => intro fr idx; rfl
  | cons s rest ih =>
    intro fr idx
    rw [applyManualGo]
    rw [stepStop_untouched (Or.inl rfl)]
    rw [ih fr (idx + 1)]
    rfl

/-- The stop written by the derived branch of the sweep. -/
def derivedStop (cfg : Config) (pp : Option String) (d : Int) (s : Stop) : Stop :=
  { s with arrival := DStr.date (chainArr cfg pp d s.port),
           departure := DStr.date (chainArr cfg pp d s.port + (cfg.stay s.port : Int)) }

theorem sweepGo_ok_inv {cfg : Config} {fr lk : Nat → Bool} {idx : Nat}
    {pp : Option String} {d : Int} {s : Stop} {rest out : List Stop}
    (h : sweepGo cfg fr lk idx pp d (s :: rest) = .ok out) :
    (s.skipped = true ∧ ∃ out', sweepGo cfg fr lk (idx + 1) pp d rest = .ok out' ∧
       out = s :: out')
    ∨ (s.skipped = false ∧ fr idx = true ∧ ∃ dd out', s.departure = .date dd ∧
         sweepGo cfg fr lk (idx + 1) (some s.port) dd rest = .ok out' ∧
         out = s :: out')
    ∨ (s.skipped = false ∧ fr idx = false ∧ lk idx = true ∧
         ∃ a dd out', s.arrival = .date a ∧ s.departure = .date dd ∧
           sweepGo cfg fr lk (idx + 1) (some s.port) dd rest = .ok out' ∧
           out = s :: out')
    ∨ (s.skipped = false ∧ fr idx = false ∧ lk idx = false ∧
         ∃ out', sweepGo cfg fr lk (idx + 1) (some s.port)
             (chainArr cfg pp d s.port + (cfg.stay s.port : Int)) rest = .ok out' ∧
           out = derivedStop cfg pp d s :: out') := by
  rw [sweepGo] at h
  by_cases hsk : s.skipped = true
  · rw [if_pos hsk] at h
    cases hrec : sweepGo cfg fr lk (idx + 1) pp d rest with
    | error pr => rw [hrec] at h; obtain ⟨e, rest'⟩ := pr; cases h
    | ok rest' =>
      rw [hrec] at h
      injection h with h
      exact Or.inl ⟨hsk, rest', rfl, h.symm⟩
  · rw [if_neg hsk] at h
    have hsk' : s.skipped = false := by
      cases hb : s.skipped
      · rfl
      · exact absurd hb hsk
    by_cases hfr : fr idx = true
    · rw [if_pos hfr] at h
      split at h
      · cases h
      · rename_i dd hpd
        cases hrec : sweepGo cfg fr lk (idx + 1) (some s.port) dd rest with
        | error pr => rw [hrec] at h; obtain ⟨e, rest'⟩ := pr; cases h
        | ok rest' =>
          rw [hrec] at h
          injection h with h
          exact Or.inr (Or.inl ⟨hsk', hfr, dd, rest', parseDate_ok_iff.mp hpd,
            hrec, h.symm⟩)
    · rw [if_neg hfr] at h
      have hfr' : fr idx = false := by
        cases hb : fr idx
        · rfl
        · exact absurd hb hfr
      by_cases hlk : lk idx = true
      · rw [if_pos hlk] at h
        split at h
        · cases h
        · rename_i a hpa
          split at h
          · cases h
          · rename_i dd hpd
            cases hrec : sweepGo cfg fr lk (idx + 1) (some s.port) dd rest with
            | error pr => rw [hrec] at h; obtain ⟨e, rest'⟩ := pr; cases h
            | ok rest' =>
              rw [hrec] at h
              injection h with h
              exact Or.inr (Or.inr (Or.inl ⟨hsk', hfr', hlk, a, dd, rest',
                parseDate_ok_iff.mp hpa, parseDate_ok_iff.mp hpd, hrec, h.symm⟩))
      · rw [if_neg hlk] at h
        have hlk' : lk idx = false := by
          cases hb : lk idx
          · rfl
          · exact absurd hb hlk
        cases hrec : sweepGo cfg fr lk (idx + 1) (some s.port)
            (chainArr cfg pp d s.port + (cfg.stay s.port : Int)) rest with
        | error pr => rw [hrec] at h; obtain ⟨e, rest'⟩ := pr; cases h
        | ok rest' =>
          rw [hrec] at h
          injection h with h
          exact Or.inr (Or.inr (Or.inr ⟨hsk', hfr', hlk', rest', rfl, h.symm⟩))

theorem sweepGo_frame {cfg : Config} {fr lk : Nat → Bool} :
    ∀ (l : List Stop) (idx : Nat) (pp : Option String) (d : Int) (k : Nat) (s : Stop),
      l[k]? = some s → (s.skipped = true ∨ fr (idx + k) = true) →
      (swState (sweepGo cfg fr lk idx pp d l))[k]? = some s := by
  intro l
  induction l with
  | nil => intro idx pp d k s hk; simp at hk
  | cons s0 rest ih =>
    intro idx pp d k s hk hs
    have hshift : ∀ n : Nat, k = n + 1 →
        (s.skipped = true ∨ fr ((idx + 1) + n) = true) := by
      intro n hn
      rcases hs with hs | hs
      · exact Or.inl hs
      · right
        have e2 : idx + 1 + n = idx + k := by omega
        rw [e2]; exact hs
    rw [sweepGo]
    by_cases hsk : s0.skipped = true
    · rw [if_pos hsk]
      cases hrec : sweepGo cfg fr lk (idx + 1) pp d rest with
      | error pr =>
        obtain ⟨e, rest'⟩ := pr
        cases k with
        | zero =>
          simp only [List.getElem?_cons_zero, Option.some.injEq] at hk
          subst hk
          simp [swState, hrec]
        | succ n =>
          simp only [List.getElem?_cons_succ] at hk
          have := ih (idx + 1) pp d n s hk (hshift n rfl)
          rw [hrec] at this
          simpa [swState, hrec] using this
      | ok rest' =>
        cases k with
        | zero =>
          simp only [List.getElem?_cons_zero, Option.some.injEq] at hk
          subst hk
          simp [swState, hrec]
        | succ n =>
          simp only [List.getElem?_cons_succ] at hk
          have := ih (idx + 1) pp d n s hk (hshift n rfl)
          rw [hrec] at this
          simpa [swState, hrec] using this
    · rw [if_neg hsk]
      by_cases hfr : fr idx = true
      · rw [if_pos hfr]
        cases hpd : parseDate s0.departure with
        | error e =>
          cases k with
          | zero =>
            simp only [List.getElem?_cons_zero, Option.some.injEq] at hk
            subst hk
            simp [swState, hpd]
          | succ n =>
            simp only [List.getElem?_cons_succ] at hk
            simpa [swState, hpd] using hk
        | ok dd =>
          cases hrec : sweepGo cfg fr lk (idx + 1) (some s0.port) dd rest with
          | error pr =>
            obtain ⟨e, rest'⟩ := pr
            cases k with
            | zero =>
              simp only [List.getElem?_cons_zero, Option.some.injEq] at hk
              subst hk
              simp [swState, hpd, hrec]
            | succ n =>
              simp only [List.getElem?_cons_succ] at hk
              have := ih (idx + 1) (some s0.port) dd n s hk (hshift n rfl)
              rw [hrec] at this
              simpa [swState, hpd, hrec] using this
          | ok rest' =>
            cases k with
            | zero =>
              simp only [List.getElem?_cons_zero, Option.some.injEq] at hk
              subst hk
              simp [swState, hpd, hrec]
            | succ n =>
              simp only [List.getElem?_cons_succ] at hk
              have := ih (idx + 1) (some s0.port) dd n s hk (hshift n rfl)
              rw [hrec] at this
              simpa [swState, hpd, hrec] using this
      · rw [if_neg hfr]
        have hk0 : ¬(k = 0) := by
          intro hk0
          subst hk0
          simp only [List.getElem?_cons_zero, Option.some.injEq] at hk
          subst hk
          rcases hs with hs | hs
          · exact hsk hs
          · rw [Nat.add_zero] at hs; exact hfr hs
        obtain ⟨n, rfl⟩ : ∃ n, k = n + 1 := by
          cases k with
          | zero => exact absurd rfl hk0
          | succ n => exact ⟨n, rfl⟩
        simp only [List.getElem?_cons_succ] at hk
        by_cases hlk : lk idx = true
        · rw [if_pos hlk]
          cases hpa : parseDate s0.arrival with
          | error e => simpa [swState, hpa] using hk
          | ok a =>
            cases hpd : parseDate s0.departure with
            | error e => simpa [swState, hpa, hpd] using hk
            | ok dd =>
              cases hrec : sweepGo cfg fr lk (idx + 1) (some s0.port) dd rest with
              | error pr =>
                obtain ⟨e, rest'⟩ := pr
                have := ih (idx + 1) (some s0.port) dd n s hk (hshift n rfl)
                rw [hrec] at this
                simpa [swState, hpa, hpd, hrec] using this
              | ok rest' =>
                have := ih (idx + 1) (some s0.port) dd n s hk (hshift n rfl)
                rw [hrec] at this
                simpa [swState, hpa, hpd, hrec] using this
        · rw [if_neg hlk]
          cases hrec : sweepGo cfg fr lk (idx + 1) (some s0.port)
              (chainArr cfg pp d s0.port + (cfg.stay s0.port : Int)) rest with
          | error pr =>
            obtain ⟨e, rest'⟩ := pr
            have := ih (idx + 1) (some s0.port)
                (chainArr cfg pp d s0.port + (cfg.stay s0.port : Int)) n s hk (hshift n rfl)
            rw [hrec] at this
            simpa [swState, hrec] using this
          | ok rest' =>
            have := ih (idx + 1) (some s0.port)
                (chainArr cfg pp d s0.port + (cfg.stay s0.port : Int)) n s hk (hshift n rfl)
            rw [hrec] at this
            simpa [swState, hrec] using this

theorem chainArr_ge (cfg : Config) (pp : Option String) (d : Int) (port : String) :
    d ≤ chainArr cfg pp d port := by
  cases pp with
  | none => simp [chainArr]
  | some p =>
    simp only [chainArr]
    have := Int.natCast_nonneg (cfg.transition p port)
    omega

theorem sweepGo_dated {cfg : Config} {fr lk : Nat → Bool} :
    ∀ (l : List Stop) (idx : Nat) (pp : Option String) (d : Int) (out : List Stop),
      (∀ (k : Nat) (s : Stop), l[k]? = some s → fr (idx + k) = true →
        s.skipped = false →
        ∃ a dd, s.arrival = .date a ∧ s.departure = .date dd ∧ a ≤ dd) →
      (∀ (k : Nat) (s : Stop), l[k]? = some s → fr (idx + k) = false →
        lk (idx + k) = true →
        ∃ a dd, s.arrival = .date a ∧ s.departure = .date dd ∧ a ≤ dd) →
      sweepGo cfg fr lk idx pp d l = .ok out →
      ∀ (k : Nat) (s : Stop), out[k]? = some s → s.skipped = false →
        ∃ a dd, s.arrival = .date a ∧ s.departure = .date dd ∧ a ≤ dd := by
  intro l
  induction l with
  | nil =>
    intro idx pp d out _ _ h k s hk
    injection h with h
    subst h
    simp at hk
  | cons s0 rest ih =>
    intro idx pp d out Hfr Hlk h k s hk hskip
    have Hfr' : ∀ (k : Nat) (s : Stop), rest[k]? = some s →
        fr ((idx + 1) + k) = true → s.skipped = false →
        ∃ a dd, s.arrival = .date a ∧ s.departure = .date dd ∧ a ≤ dd := by
      intro k s hk' hf hs'
      refine Hfr (k + 1) s (by simpa using hk') ?_ hs'
      have e : idx + (k + 1) = idx + 1 + k := by omega
      rw [e]; exact hf
    have Hlk' : ∀ (k : Nat) (s : Stop), rest[k]? = some s →
        fr ((idx + 1) + k) = false → lk ((idx + 1) + k) = true →
        ∃ a dd, s.arrival = .date a ∧ s.departure = .date dd ∧ a ≤ dd := by
      intro k s hk' hf hl
      have e : idx + (k + 1) = idx + 1 + k := by omega
      refine Hlk (k + 1) s (by simpa using hk') ?_ ?_
      · rw [e]; exact hf
      · rw [e]; exact hl
    rcases sweepGo_ok_inv h with
      ⟨hsk, out', hrec, rfl⟩ | ⟨hsk, hfr0, dd, out', hdep, hrec, rfl⟩ |
      ⟨hsk, hfr0, hlk0, a, dd, out', harr, hdep, hrec, rfl⟩ |
      ⟨hsk, hfr0, hlk0, out', hrec, rfl⟩
    · cases k with
      | zero =>
        simp only [List.getElem?_cons_zero, Option.some.injEq] at hk
        subst hk
        rw [hsk] at hskip
        cases hskip
      | succ n =>
        simp only [List.getElem?_cons_succ] at hk
        exact ih (idx + 1) pp d out' Hfr' Hlk' hrec n s hk hskip
    · cases k with
      | zero =>
        simp only [List.getElem?_cons_zero, Option.some.injEq] at hk
        subst hk
        exact Hfr 0 s0 (by simp) (by rw [Nat.add_zero]; exact hfr0) hskip
      | succ n =>
        simp only [List.getElem?_cons_succ] at hk
        exact ih (idx + 1) (some s0.port) dd out' Hfr' Hlk' hrec n s hk hskip
    · cases k with
      | zero =>
        simp only [List.getElem?_cons_zero, Option.some.injEq] at hk
        subst hk
        refine Hlk 0 s0 (by simp) ?_ ?_
        · rw [Nat.add_zero]; exact hfr0
        · rw [Nat.add_zero]; exact hlk0
      | succ n =>
        simp only [List.getElem?_cons_succ] at hk
        exact ih (idx + 1) (some s0.port) dd out' Hfr' Hlk' hrec n s hk hskip
    · cases k with
      | zero =>
        simp only [List.getElem?_cons_zero, Option.some.injEq] at hk
        subst hk
        refine ⟨chainArr cfg pp d s0.port,
          chainArr cfg pp d s0.port + (cfg.stay s0.port : Int), rfl, rfl, ?_⟩
        have := Int.natCast_nonneg (cfg.stay s0.port)
        omega
      | succ n =>
        simp only [List.getElem?_cons_succ] at hk
        exact ih (idx + 1) (some s0.port)
          (chainArr cfg pp d s0.port + (cfg.stay s0.port : Int)) out'
          Hfr' Hlk' hrec n s hk hskip

theorem sweepGo_chain {cfg : Config} {fr lk : Nat → Bool} :
    ∀ (l : List Stop) (idx : Nat) (pp : Option String) (d : Int) (out : List Stop),
      sweepGo cfg fr lk idx pp d l = .ok out →
      ((∀ (j : Nat) (sj : Stop), out[j]? = some sj →
          (∀ (m : Nat) (t : Stop), m < j → out[m]? = some t → t.skipped = true) →
          sj.skipped = false → fr (idx + j) = false → lk (idx + j) = false →
          ∃ aj, sj.arrival = .date aj ∧ d ≤ aj)
       ∧ (∀ (j : Nat) (sj : Stop), out[j]? = some sj → sj.skipped = false →
            ∃ dj, sj.departure = .date dj)
       ∧ (∀ (i j : Nat) (si sj : Stop), i < j →
            out[i]? = some si → out[j]? = some sj →
            si.skipped = false → sj.skipped = false →
            (∀ (m : Nat) (t : Stop), i < m → m < j → out[m]? = some t →
              t.skipped = true) →
            fr (idx + j) = false → lk (idx + j) = false →
            ∃ di aj, si.departure = .date di ∧ sj.arrival = .date aj ∧ di ≤ aj)) := by
  intro l
  induction l with
  | nil =>
    intro idx pp d out h
    injection h with h
    subst h
    refine ⟨?_, ?_, ?_⟩
    · intro j sj hj; simp at hj
    · intro j sj hj; simp at hj
    · intro i j si sj hij hi; simp at hi
  | cons s0 rest ih =>
    intro idx pp d out h
    have eidx : ∀ n : Nat, idx + (n + 1) = (idx + 1) + n := fun n => by omega
    rcases sweepGo_ok_inv h with
      ⟨hsk, out', hrec, rfl⟩ | ⟨hsk, hfr0, dd, out', hdep, hrec, rfl⟩ |
      ⟨hsk, hfr0, hlk0, a0, dd, out', harr, hdep, hrec, rfl⟩ |
      ⟨hsk, hfr0, hlk0, out', hrec, rfl⟩
    -- skipped head: chain state unchanged
    · obtain ⟨A', B', C'⟩ := ih (idx + 1) pp d out' hrec
      refine ⟨?_, ?_, ?_⟩
      · intro j sj hj hpre hskip hfrj hlkj
        cases j with
        | zero =>
          simp only [List.getElem?_cons_zero, Option.some.injEq] at hj
          subst hj
          rw [hsk] at hskip
          cases hskip
        | succ n =>
          simp only [List.getElem?_cons_succ] at hj
          refine A' n sj hj ?_ hskip (by rw [← eidx]; exact hfrj)
            (by rw [← eidx]; exact hlkj)
          intro m t hm ht
          exact hpre (m + 1) t (by omega) (by simpa using ht)
      · intro j sj hj hskip
        cases j with
        | zero =>
          simp only [List.getElem?_cons_zero, Option.some.injEq] at hj
          subst hj
          rw [hsk] at hskip
          cases hskip
        | succ n =>
          simp only [List.getElem?_cons_succ] at hj
          exact B' n sj hj hskip
      · intro i j si sj hij hi hj hsi hsj hbet hfrj hlkj
        cases i with
        | zero =>
          simp only [List.getElem?_cons_zero, Option.some.injEq] at hi
          subst hi
          rw [hsk] at hsi
          cases hsi
        | succ ni =>
          cases j with
          | zero => omega
          | succ nj =>
            simp only [List.getElem?_cons_succ] at hi hj
            refine C' ni nj si sj (by omega) hi hj hsi hsj ?_
              (by rw [← eidx]; exact hfrj) (by rw [← eidx]; exact hlkj)
            intro m t hm1 hm2 ht
            exact hbet (m + 1) t (by omega) (by omega) (by simpa using ht)
    -- frozen head: chain re-anchored on its departure dd
    · obtain ⟨A', B', C'⟩ := ih (idx + 1) (some s0.port) dd out' hrec
      refine ⟨?_, ?_, ?_⟩
      · intro j sj hj hpre hskip hfrj hlkj
        cases j with
        | zero =>
          rw [Nat.add_zero] at hfrj
          rw [hfr0] at hfrj
          cases hfrj
        | succ n =>
          have := hpre 0 s0 (by omega) (by simp)
          rw [hsk] at this
          cases this
      · intro j sj hj hskip
        cases j with
        | zero =>
          simp only [List.getElem?_cons_zero, Option.some.injEq] at hj
          subst hj
          exact ⟨dd, hdep⟩
        | succ n =>
          simp only [List.getElem?_cons_succ] at hj
          exact B' n sj hj hskip
      · intro i j si sj hij hi hj hsi hsj hbet hfrj hlkj
        cases i with
        | zero =>
          simp only [List.getElem?_cons_zero, Option.some.injEq] at hi
          subst hi
          cases j with
          | zero => omega
          | succ n =>
            simp only [List.getElem?_cons_succ] at hj
            have hA := A' n sj hj ?_ hsj (by rw [← eidx]; exact hfrj)
              (by rw [← eidx]; exact hlkj)
            · obtain ⟨aj, harrj, hle⟩ := hA
              exact ⟨dd, aj, hdep, harrj, hle⟩
            · intro m t hm ht
              exact hbet (m + 1) t (by omega) (by omega) (by simpa using ht)
        | succ ni =>
          cases j with
          | zero => omega
          | succ nj =>
            simp only [List.getElem?_cons_succ] at hi hj
            refine C' ni nj si sj (by omega) hi hj hsi hsj ?_
              (by rw [← eidx]; exact hfrj) (by rw [← eidx]; exact hlkj)
            intro m t hm1 hm2 ht
            exact hbet (m + 1) t (by omega) (by omega) (by simpa using ht)
    -- locked head: chain re-anchored on its departure dd
    · obtain ⟨A', B', C'⟩ := ih (idx + 1) (some s0.port) dd out' hrec
      refine ⟨?_, ?_, ?_⟩
      · intro j sj hj hpre hskip hfrj hlkj
        cases j with
        | zero =>
          rw [Nat.add_zero] at hlkj
          rw [hlk0] at hlkj
          cases hlkj
        | succ n =>
          have := hpre 0 s0 (by omega) (by simp)
          rw [hsk] at this
          cases this
      · intro j sj hj hskip
        cases j with
        | zero =>
          simp only [List.getElem?_cons_zero, Option.some.injEq] at hj
          subst hj
          exact ⟨dd, hdep⟩
        | succ n =>
          simp only [List.getElem?_cons_succ] at hj
          exact B' n sj hj hskip
      · intro i j si sj hij hi hj hsi hsj hbet hfrj hlkj
        cases i with
        | zero =>
          simp only [List.getElem?_cons_zero, Option.some.injEq] at hi
          subst hi
          cases j with
          | zero => omega
          | succ n =>
            simp only [List.getElem?_cons_succ] at hj
            have hA := A' n sj hj ?_ hsj (by rw [← eidx]; exact hfrj)
              (by rw [← eidx]; exact hlkj)
            · obtain ⟨aj, harrj, hle⟩ := hA
              exact ⟨dd, aj, hdep, harrj, hle⟩
            · intro m t hm ht
              exact hbet (m + 1) t (by omega) (by omega) (by simpa using ht)
        | succ ni =>
          cases j with
          | zero => omega
          | succ nj =>
            simp only [List.getElem?_cons_succ] at hi hj
            refine C' ni nj si sj (by omega) hi hj hsi hsj ?_
              (by rw [← eidx]; exact hfrj) (by rw [← eidx]; exact hlkj)
            intro m t hm1 hm2 ht
            exact hbet (m + 1) t (by omega) (by omega) (by simpa using ht)
    -- derived head: dates rewritten from the chain
    · obtain ⟨A', B', C'⟩ := ih (idx + 1) (some s0.port)
        (chainArr cfg pp d s0.port + (cfg.stay s0.port : Int)) out' hrec
      refine ⟨?_, ?_, ?_⟩
      · intro j sj hj hpre hskip hfrj hlkj
        cases j with
        | zero =>
          simp only [List.getElem?_cons_zero, Option.some.injEq] at hj
          subst hj
          exact ⟨chainArr cfg pp d s0.port, rfl, chainArr_ge cfg pp d s0.port⟩
        | succ n =>
          have := hpre 0 (derivedStop cfg pp d s0) (by omega) (by simp)
          simp only [derivedStop] at this
          rw [hsk] at this
          cases this
      · intro j sj hj hskip
        cases j with
        | zero =>
          simp only [List.getElem?_cons_zero, Option.some.injEq] at hj
          subst hj
          exact ⟨chainArr cfg pp d s0.port + (cfg.stay s0.port : Int), rfl⟩
        | succ n =>
          simp only [List.getElem?_cons_succ] at hj
          exact B' n sj hj hskip
      · intro i j si sj hij hi hj hsi hsj hbet hfrj hlkj
        cases i with
        | zero =>
          simp only [List.getElem?_cons_zero, Option.some.injEq] at hi
          subst hi
          cases j with
          | zero => omega
          | succ n =>
            simp only [List.getElem?_cons_succ] at hj
            have hA := A' n sj hj ?_ hsj (by rw [← eidx]; exact hfrj)
              (by rw [← eidx]; exact hlkj)
            · obtain ⟨aj, harrj, hle⟩ := hA
              exact ⟨chainArr cfg pp d s0.port + (cfg.stay s0.port : Int), aj,
                rfl, harrj, hle⟩
            · intro m t hm ht
              exact hbet (m + 1) t (by omega) (by omega) (by simpa using ht)
        | succ ni =>
          cases j with
          | zero => omega
          | succ nj =>
            simp only [List.getElem?_cons_succ] at hi hj
            refine C' ni nj si sj (by omega) hi hj hsi hsj ?_
              (by rw [← eidx]; exact hfrj) (by rw [← eidx]; exact hlkj)
            intro m t hm1 hm2 ht
            exact hbet (m + 1) t (by omega) (by omega) (by simpa using ht)

theorem sweepGo_id {cfg : Config} {fr lk : Nat → Bool}
    (hfr : ∀ k, fr k = false) (hlk : ∀ k, lk k = false) :
    ∀ (l : List Stop) (idx : Nat) (pp : Option String) (d : Int),
      chainFrom cfg pp d l = true →
      sweepGo cfg fr lk idx pp d l = .ok l := by
  intro l
  induction l with
  | nil => intro idx pp d hch; rfl
  | cons s0 rest ih =>
    intro idx pp d hch
    rw [chainFrom] at hch
    simp only [Bool.and_eq_true, decide_eq_true_eq] at hch
    obtain ⟨⟨⟨hskip, harr⟩, hdep⟩, hrest⟩ := hch
    rw [sweepGo]
    rw [if_neg (by rw [hskip]; simp)]
    rw [if_neg (by rw [hfr idx]; simp)]
    rw [if_neg (by rw [hlk idx]; simp)]
    rw [ih (idx + 1) (some s0.port) (chainArr cfg pp d s0.port +
      (cfg.stay s0.port : Int)) hrest]
    have hs0 : ({ s0 with
                    arrival := DStr.date (chainArr cfg pp d s0.port),
                    departure := DStr.date (chainArr cfg pp d s0.port +
                      (cfg.stay s0.port : Int)) } : Stop) = s0 := by
      cases s0
      simp only at harr hdep
      rw [harr, hdep]
    rw [hs0]

/-! ## Unfolding `update_plan_from_manual_table` -/

theorem update_ok_inv {cfg : Config} {plan : Plan}
    {mm : Nat → Option (DStr × DStr)} {q : Plan}
    (h : update_plan_from_manual_table cfg plan mm = .ok q) :
    ∃ stops1 locks start stops2,
      applyManualGo mm (frozenSet plan) 0 plan.stops = .ok (stops1, locks) ∧
      parseDate plan.start_date = .ok start ∧
      sweepGo cfg (frozenSet plan) (fun i => decide (i ∈ locks)) 0 none start
        stops1 = .ok stops2 ∧
      q = { plan with stops := stops2 } := by
  simp only [update_plan_from_manual_table] at h
  split at h
  · cases h
  · rename_i stops1 locks ham
    split at h
    · cases h
    · rename_i start hsd
      split at h
      · cases h
      · rename_i stops2 hsw
        injection h with h
        exact ⟨stops1, locks, start, stops2, ham, hsd, hsw, h.symm⟩

/-! ## The single-stop edit path -/

theorem applyShiftGo_dated {n : Int} :
    ∀ (l : List Stop),
      (∀ s ∈ l, ∃ a dd, s.arrival = .date a ∧ s.departure = .date dd) →
      applyShiftGo n l = .ok (l.map (shiftStop n)) := by
  intro l
  induction l with
  | nil => intro _; rfl
  | cons s rest ih =>
    intro hd
    obtain ⟨a, dd, ha, hdd⟩ := hd s (by simp)
    rw [applyShiftGo, ha, hdd]
    simp only [parseDate]
    rw [ih (fun t ht => hd t (by simp [ht]))]
    simp only [List.map_cons]
    have : shiftStop n s = { s with arrival := DStr.date (a + n), departure := DStr.date (dd + n) } := by
      simp [shiftStop, ha, hdd, dateVal]
    rw [this]

theorem applyShiftGo_bad {n : Int} :
    ∀ (l : List Stop),
      (∃ s ∈ l, s.arrival.isDate = false ∨ s.departure.isDate = false) →
      ∃ e l', applyShiftGo n l = .error (e, l') := by
  intro l
  induction l with
  | nil => intro h; simp at h
  | cons s rest ih =>
    intro h
    rw [applyShiftGo]
    cases ha : parseDate s.arrival with
    | error e => exact ⟨e, s :: rest, rfl⟩
    | ok a =>
      cases hdd : parseDate s.departure with
      | error e => exact ⟨e, s :: rest, rfl⟩
      | ok dd =>
        have hbad : ∃ t ∈ rest, t.arrival.isDate = false ∨
            t.departure.isDate = false := by
          obtain ⟨t, htmem, htbad⟩ := h
          rcases List.mem_cons.mp htmem with rfl | hm
          · exfalso
            rw [parseDate_ok_iff.mp ha, parseDate_ok_iff.mp hdd] at htbad
            simp [DStr.isDate] at htbad
          · exact ⟨t, hm, htbad⟩
        obtain ⟨e, l', hrec⟩ := ih hbad
        rw [hrec]
        exact ⟨e, _, rfl⟩

theorem manual_update_stop_eq {plan : Plan} {i : Nat} {s : Stop}
    {arrival departure : DStr} {oa od na nd : Int}
    (hi : plan.stops[i]? = some s)
    (hoa : s.arrival = .date oa) (hod : s.departure = .date od)
    (hna : (arrival = .empty ∧ na = oa) ∨ arrival = .date na)
    (hnd : (departure = .empty ∧ nd = od) ∨ departure = .date nd)
    (hle : ¬(nd < na)) (propagate : Bool) :
    manual_update_stop plan i arrival departure propagate =
      (if propagate = true ∧ ¬((if nd - od = 0 then na - oa else nd - od) = 0) then
         match applyShiftGo (if nd - od = 0 then na - oa else nd - od)
             ((plan.stops.set i { s with arrival := DStr.date na, departure := DStr.date nd }).drop (i + 1)) with
         | .error (e, rest') =>
           Res.err e { plan with stops := (plan.stops.set i { s with arrival := DStr.date na, departure := DStr.date nd }).take (i + 1) ++ rest' }
         | .ok rest' =>
           Res.ok { plan with stops := (plan.stops.set i { s with arrival := DStr.date na, departure := DStr.date nd }).take (i + 1) ++ rest' }
       else
         Res.ok { plan with stops := plan.stops.set i { s with arrival := DStr.date na, departure := DStr.date nd } }) := by
  rcases hna with ⟨rfl, rfl⟩ | rfl
  · rcases hnd with ⟨rfl, rfl⟩ | rfl
    · simp only [manual_update_stop, hi, hoa, hod, parseDate_date, DStr.truthy,
        Bool.false_eq_true, if_false, if_neg hle]
      have hs : ({ s with arrival := DStr.date na, departure := DStr.date nd } : Stop) = s := by
        cases s
        simp only at hoa hod
        rw [hoa, hod]
      rw [hs]
      cases propagate with
      | false => simp
      | true => simp
    · simp only [manual_update_stop, hi, hoa, hod, parseDate_date, DStr.truthy,
        Bool.false_eq_true, if_false, if_true, if_neg hle]
      cases propagate with
      | false => simp
      | true => simp
  · rcases hnd with ⟨rfl, rfl⟩ | rfl
    · simp only [manual_update_stop, hi, hoa, hod, parseDate_date, DStr.truthy,
        Bool.false_eq_true, if_false, if_true, if_neg hle]
      have hs : ({ s with arrival := DStr.date na, departure := DStr.date nd } : Stop) = { s with arrival := DStr.date na } := by
        cases s
        simp only at hod
        rw [hod]
      rw [hs]
      cases propagate with
      | false => simp
      | true => simp
    · simp only [manual_update_stop, hi, hoa, hod, parseDate_date, DStr.truthy,
        if_true, if_neg hle]
      cases propagate with
      | false => simp
      | true => simp

theorem sweepGo_length {cfg : Config} {fr lk : Nat → Bool} :
    ∀ (l : List Stop) (idx : Nat) (pp : Option String) (d : Int),
      (swState (sweepGo cfg fr lk idx pp d l)).length = l.length := by
  intro l
  induction l with
  | nil => intro idx pp d; rfl
  | cons s0 rest ih =>
    intro idx pp d
    rw [sweepGo]
    by_cases hsk : s0.skipped = true
    · rw [if_pos hsk]
      cases hrec : sweepGo cfg fr lk (idx + 1) pp d rest with
      | error pr =>
        obtain ⟨e, rest'⟩ := pr
        have := ih (idx + 1) pp d
        rw [hrec] at this
        simpa [swState, hrec] using this
      | ok rest' =>
        have := ih (idx + 1) pp d
        rw [hrec] at this
        simpa [swState, hrec] using this
    · rw [if_neg hsk]
      by_cases hfr : fr idx = true
      · rw [if_pos hfr]
        cases hpd : parseDate s0.departure with
        | error e => simp [swState, hpd]
        | ok dd =>
          cases hrec : sweepGo cfg fr lk (idx + 1) (some s0.port) dd rest with
          | error pr =>
            obtain ⟨e, rest'⟩ := pr
            have := ih (idx + 1) (some s0.port) dd
            rw [hrec] at this
            simpa [swState, hpd, hrec] using this
          | ok rest' =>
            have := ih (idx + 1) (some s0.port) dd
            rw [hrec] at this
            simpa [swState, hpd, hrec] using this
      · rw [if_neg hfr]
        by_cases hlk : lk idx = true
        · rw [if_pos hlk]
          cases hpa : parseDate s0.arrival with
          | error e => simp [swState, hpa]
          | ok a =>
            cases hpd : parseDate s0.departure with
            | error e => simp [swState, hpa, hpd]
            | ok dd =>
              cases hrec : sweepGo cfg fr lk (idx + 1) (some s0.port) dd rest with
              | error pr =>
                obtain ⟨e, rest'⟩ := pr
                have := ih (idx + 1) (some s0.port) dd
                rw [hrec] at this
                simpa [swState, hpa, hpd, hrec] using this
              | ok rest' =>
                have := ih (idx + 1) (some s0.port) dd
                rw [hrec] at this
                simpa [swState, hpa, hpd, hrec] using this
        · rw [if_neg hlk]
          cases hrec : sweepGo cfg fr lk (idx + 1) (some s0.port)
              (chainArr cfg pp d s0.port + (cfg.stay s0.port : Int)) rest with
          | error pr =>
            obtain ⟨e, rest'⟩ := pr
            have := ih (idx + 1) (some s0.port)
              (chainArr cfg pp d s0.port + (cfg.stay s0.port : Int))
            rw [hrec] at this
            simpa [swState, hrec] using this
          | ok rest' =>
            have := ih (idx + 1) (some s0.port)
              (chainArr cfg pp d s0.port + (cfg.stay s0.port : Int))
            rw [hrec] at this
            simpa [swState, hrec] using this

theorem update_state_stops {cfg : Config} {plan : Plan}
    {mm : Nat → Option (DStr × DStr)} :
    (update_plan_from_manual_table cfg plan mm).state.stops =
      (match applyManualGo mm (frozenSet plan) 0 plan.stops with
       | .error (_, stops') => stops'
       | .ok (stops1, locks) =>
         match parseDate plan.start_date with
         | .error _ => stops1
         | .ok start =>
           swState (sweepGo cfg (frozenSet plan) (fun i => decide (i ∈ locks)) 0
             none start stops1)) := by
  simp only [update_plan_from_manual_table]
  split
  · rfl
  · split
    · rfl
    · split
      · rename_i e stops2 heq
        rw [heq]
        rfl
      · rename_i stops2 heq
        rw [heq]
        rfl

/-! ## Concrete fixtures -/

/-- Two ports `A`, `B`: transition 2 days between distinct ports, stay 1. -/
def abCfg : Config := ⟨["s"], ["A", "B"], fun p q => if p = q then 0 else 2, fun _ => 1⟩

/-- A plan holding a skipped stop (both dates empty) at index 1. -/
def skipPlan : Plan :=
  ⟨1, "s", ["A", "B"], .date 0, .date 365,
   [⟨"A", .date 0, .date 1, false⟩, ⟨"B", .empty, .empty, true⟩,
    ⟨"A", .date 6, .date 7, false⟩], []⟩

/-- A fully dated two-stop plan. -/
def abPlan : Plan :=
  ⟨1, "s", ["A", "B"], .date 0, .date 365,
   [⟨"A", .date 0, .date 1, false⟩, ⟨"B", .date 3, .date 4, false⟩], []⟩

/-- All-zero timing rules: every transition and stay is 0 days. -/
def zeroCfg : Config := ⟨["s"], ["A", "B"], fun _ _ => 0, fun _ => 0⟩

/-- A fully dated two-stop plan whose period 0 is frozen. -/
def frozenPlan : Plan :=
  ⟨1, "s", ["A", "B"], .date 0, .date 365,
   [⟨"A", .date 0, .date 1, false⟩, ⟨"B", .date 3, .date 4, false⟩], [0]⟩

/-- A fully dated four-stop plan (two periods) whose period 0 is frozen. -/
def framePlan : Plan :=
  ⟨1, "s", ["A", "B"], .date 0, .date 365,
   [⟨"A", .date 0, .date 1, false⟩, ⟨"B", .date 3, .date 4, false⟩,
    ⟨"A", .date 6, .date 7, false⟩, ⟨"B", .date 9, .date 10, false⟩], [0]⟩

/-- A fully dated four-stop plan, nothing frozen (days 0..10 from
2026-01-01; stop 1 departs day 4 = 2026-01-05). -/
def shiftPlan : Plan :=
  ⟨1, "s", ["A", "B"], .date 0, .date 365,
   [⟨"A", .date 0, .date 1, false⟩, ⟨"B", .date 3, .date 4, false⟩,
    ⟨"A", .date 6, .date 7, false⟩, ⟨"B", .date 9, .date 10, false⟩], []⟩

/-- A plan whose stop 1 (after index 0) is skipped, hence undated. -/
def gapPlan : Plan :=
  ⟨1, "s", ["A", "B"], .date 0, .date 365,
   [⟨"A", .date 0, .date 1, false⟩, ⟨"B", .empty, .empty, true⟩,
    ⟨"A", .date 6, .date 7, false⟩], []⟩

/-! ## The claims -/

/-- **C1** (code_bug evidence).  The claim says an already-skipped stop
(`skipped = true`, both dates empty) resubmitted with the empty edit
`("", "")` stays skipped with empty dates.  The code instead takes the
`else` branch of the empty-edit case (both old dates are empty), sets
`skipped := False`, and the sweep then re-derives fresh dates for the stop:
submitting the empty edit on the skipped stop 1 of `skipPlan` yields
`skipped = false` with arrival day 3 and departure day 4. -/
theorem resubmit_empty_on_skipped_unskips :
    update_plan_from_manual_table abCfg skipPlan
      (fun i => if i = 1 then some (.empty, .empty) else none) =
    .ok { skipPlan with stops :=
      [⟨"A", .date 0, .date 1, false⟩, ⟨"B", .date 3, .date 4, false⟩,
       ⟨"A", .date 6, .date 7, false⟩] } := by
  decide

/-- **C2** (code_bug evidence).  The claim says every rejected edit leaves
the stored Plan unchanged.  `manual_update_stop` writes the submitted
arrival and departure into the stop before the `departure < arrival`
check, so the rejected edit (arrival day 9, departure day 8) raises but
leaves the in-memory plan mutated: stop 1 now holds the invalid pair. -/
theorem rejected_edit_mutates_plan :
    (manual_update_stop abPlan 1 (DStr.date 9) (DStr.date 8) true).isOk = false ∧
    (manual_update_stop abPlan 1 (DStr.date 9) (DStr.date 8) true).state ≠ abPlan ∧
    (manual_update_stop abPlan 1 (DStr.date 9) (DStr.date 8) true).state.stops[1]?
      = some ⟨"B", DStr.date 9, DStr.date 8, false⟩ := by
  decide

/-- **C3** (code_bug evidence).  The claim says the generation loop of
`create_plan` terminates for every non-negative configuration, including
all-zero rules.  With all transitions and stays 0 the running departure
never advances past the start date, so the guard
`current_departure < limit` holds forever: for every finite iteration
budget `fuel` the loop is still running (`.ok none`), i.e. the Python
`while` loop never terminates. -/
theorem create_plan_zero_rules_never_terminates :
    ∀ (fuel pid : Nat),
      create_plan zeroCfg "s" ["A", "B"] (DStr.date 0) pid fuel = .ok none := by
  intro fuel pid
  have h := createPlanGo_zero_stuck zeroCfg (fun _ _ => rfl) (fun _ => rfl)
    ["A", "B"] ((0 : Int) + (PLAN_HORIZON_DAYS : Int)) fuel [] 0 0
    (by norm_num [PLAN_HORIZON_DAYS])
  simp only [create_plan, parseDate]
  rw [if_pos (by simp [zeroCfg])]
  rw [if_neg (by simp)]
  rw [if_pos (by simp [zeroCfg])]
  rw [h]

/-- **C6** (confirmed).  `create_plan` generates stops by the recurrence:
the first stop's arrival is the start date; every later stop's arrival is
the previous departure plus `transition(prevPort, port)`; every departure
is `arrival + stay(port)` (the predicate `chainFrom`).  In particular, for
route `[Vladivostok, Korsakov]`, transition 2 both ways, stay 1, start
2026-01-01 (day 0): stop 0 = (arrival day 0 = 2026-01-01, departure day 1
= 2026-01-02), stop 1 = (day 3 = 2026-01-04, day 4 = 2026-01-05), stop 2 =
(day 6 = 2026-01-07, day 7 = 2026-01-08). -/
theorem create_plan_recurrence_scenario :
    (∀ (cfg : Config) (ship : String) (route : List String) (sd : DStr)
       (pid fuel : Nat) (plan : Plan) (start : Int),
       create_plan cfg ship route sd pid fuel = .ok (some plan) →
       parseDate plan.start_date = .ok start →
       chainFrom cfg none start plan.stops = true)
    ∧ (create_plan scenCfg "ship" scenRoute (DStr.date 0) 1 400).map
        (Option.map (fun p => p.stops.take 3))
      = .ok (some [⟨"Vladivostok", DStr.date 0, DStr.date 1, false⟩,
                   ⟨"Korsakov", DStr.date 3, DStr.date 4, false⟩,
                   ⟨"Vladivostok", DStr.date 6, DStr.date 7, false⟩]) := by
  constructor
  · intro cfg ship route sd pid fuel plan start h hstart
    obtain ⟨start', hsd, hplansd, _, _, hchain⟩ := create_plan_fields h
    rw [hplansd] at hstart
    rw [hstart] at hsd
    injection hsd with hsd
    rw [hsd]
    exact hchain
  · rfl

/-- Witness for C6: the recurrence holds of the concrete scenario plan,
by the theorem applied to the scenario inputs. -/
theorem create_plan_recurrence_scenario_witness :
    chainFrom scenCfg none 0 scenPlan.stops = true :=
  create_plan_recurrence_scenario.1 scenCfg "ship" scenRoute (DStr.date 0) 1 400
    scenPlan 0 rfl rfl

/-- **C8** (confirmed).  A plan freshly produced by `create_plan`, passed
through `update_plan_from_manual_table` with an empty edit map (and its
frozen set empty, as created), comes back identical: all stops are
re-derived by the same recurrence from the same Timing Rules. -/
theorem round_trip_empty_reconcile :
    ∀ (cfg : Config) (ship : String) (route : List String) (sd : DStr)
      (pid fuel : Nat) (plan : Plan),
      create_plan cfg ship route sd pid fuel = .ok (some plan) →
      update_plan_from_manual_table cfg plan (fun _ => none) = .ok plan := by
  intro cfg ship route sd pid fuel plan h
  obtain ⟨start, hsd, hplansd, hroute, hfrozen, hchain⟩ := create_plan_fields h
  have hp : parseDate plan.start_date = .ok start := by rw [hplansd]; exact hsd
  have hfrF : ∀ k, frozenSet plan k = false := by
    intro k
    unfold frozenSet
    cases hk : plan.stops[k]? with
    | none => rfl
    | some s =>
      unfold frozenIdx
      rw [hfrozen]
      simp
  have hlkF : ∀ k, (fun i => decide (i ∈ ([] : List Nat))) k = false := by
    intro k; simp
  have hsw := sweepGo_id hfrF hlkF plan.stops 0 none start hchain
  simp only [update_plan_from_manual_table, applyManualGo_empty, hp, hsw]

/-- Witness for C8: round-trip on the concrete scenario plan. -/
theorem round_trip_empty_reconcile_witness :
    update_plan_from_manual_table scenCfg scenPlan (fun _ => none) =
      .ok scenPlan :=
  round_trip_empty_reconcile scenCfg "ship" scenRoute (DStr.date 0) 1 400
    scenPlan rfl

/-- **C10** (confirmed).  After every successful
`update_plan_from_manual_table` pass, every non-skipped stop holds both
dates with `departure ≥ arrival` — provided every stop classified frozen
that is not skipped already held valid dates with `departure ≥ arrival`
before the call.  (Stay rules are non-negative by construction: the embedding
carries them as `Nat`, as `set_stay` rejects negative values.)  Derived
stops get `departure = arrival + stay`; anchored stops were validated in
the edit loop; frozen stops pass through under the hypothesis. -/
theorem update_ok_nonskipped_dated :
    ∀ (cfg : Config) (plan : Plan) (mm : Nat → Option (DStr × DStr)) (q : Plan),
      (∀ (idx : Nat) (s : Stop), plan.stops[idx]? = some s →
        frozenSet plan idx = true → s.skipped = false →
        ∃ a dd, s.arrival = .date a ∧ s.departure = .date dd ∧ a ≤ dd) →
      update_plan_from_manual_table cfg plan mm = .ok q →
      ∀ s ∈ q.stops, s.skipped = false →
        ∃ a dd, s.arrival = .date a ∧ s.departure = .date dd ∧ a ≤ dd := by
  intro cfg plan mm q hfro hupd s hmem hskip
  obtain ⟨stops1, locks, start, stops2, ham, hsd, hsw, rfl⟩ := update_ok_inv hupd
  have hmem2 : s ∈ stops2 := hmem
  obtain ⟨k, hk⟩ := List.mem_iff_getElem?.mp hmem2
  refine sweepGo_dated stops1 0 none start stops2 ?_ ?_ hsw k s hk hskip
  · intro k' s' hk' hf hs'
    rw [Nat.zero_add] at hf
    have hfr1 : stops1[k']? = plan.stops[k']? := by
      have := @applyManualGo_frame mm (frozenSet plan)
        plan.stops 0 k' (Or.inr (by rw [Nat.zero_add]; exact hf))
      rw [ham] at this
      simpa [amState] using this
    rw [hfr1] at hk'
    exact hfro k' s' hk' hf hs'
  · intro k' s' hk' _ hl
    rw [Nat.zero_add] at hl
    have hl' : k' ∈ locks := of_decide_eq_true hl
    obtain ⟨a, dd, ha, hdd, hle, _⟩ :=
      (applyManualGo_locks plan.stops 0 stops1 locks ham).2 k' s'
        hk' (by rw [Nat.zero_add]; exact hl')
    exact ⟨a, dd, ha, hdd, hle⟩

/-- Witness for C10: a successful pass on the frozen, fully dated
`frozenPlan`, instantiated at its first stop. -/
theorem update_ok_nonskipped_dated_witness :
    update_plan_from_manual_table abCfg frozenPlan (fun _ => none) =
      .ok frozenPlan ∧
    (∃ a dd, (Stop.mk "A" (DStr.date 0) (DStr.date 1) false).arrival =
      DStr.date a ∧ (Stop.mk "A" (DStr.date 0) (DStr.date 1) false).departure =
      DStr.date dd ∧ a ≤ dd) := by
  have hupd : update_plan_from_manual_table abCfg frozenPlan (fun _ => none) =
      .ok frozenPlan := by decide
  refine ⟨hupd, ?_⟩
  refine update_ok_nonskipped_dated abCfg frozenPlan (fun _ => none) frozenPlan
    ?_ hupd ⟨"A", .date 0, .date 1, false⟩ (by decide) rfl
  intro idx s hidx _ _
  rcases idx with _ | _ | n
  · simp only [frozenPlan, List.getElem?_cons_zero, Option.some.injEq] at hidx
    subst hidx
    exact ⟨0, 1, rfl, rfl, by omega⟩
  · simp only [frozenPlan, List.getElem?_cons_succ, List.getElem?_cons_zero,
      Option.some.injEq] at hidx
    subst hidx
    exact ⟨3, 4, rfl, rfl, by omega⟩
  · simp [frozenPlan] at hidx

/-- **C5** (confirmed).  Freeze protection: if period `r` is in the plan's
frozen-row set, every stop of that period already carries both dates or is
skipped, and every key of the batch edit map lies outside the period, then
`update_plan_from_manual_table` — whether it returns normally or raises —
leaves the arrival, departure and skipped flag of every stop of period `r`
unchanged (the whole `Stop` value is unchanged). -/
theorem frozen_period_frame :
    ∀ (cfg : Config) (plan : Plan) (mm : Nat → Option (DStr × DStr)) (r : Nat),
      r ∈ plan.frozen_rows →
      (∀ (idx : Nat) (s : Stop), plan.stops[idx]? = some s →
        idx / plan.route.length = r →
        (s.arrival.truthy = true ∧ s.departure.truthy = true) ∨ s.skipped = true) →
      (∀ idx : Nat, idx / plan.route.length = r → mm idx = none) →
      ∀ idx : Nat, idx / plan.route.length = r →
        (update_plan_from_manual_table cfg plan mm).state.stops[idx]? =
          plan.stops[idx]? := by
  intro cfg plan mm r hr hfull hout idx hrow
  have hmm : mm idx = none := hout idx hrow
  have ham0 : (amState (applyManualGo mm (frozenSet plan) 0 plan.stops))[idx]? =
      plan.stops[idx]? :=
    applyManualGo_frame plan.stops 0 idx (Or.inl (by rw [Nat.zero_add]; exact hmm))
  rw [update_state_stops]
  cases ham : applyManualGo mm (frozenSet plan) 0 plan.stops with
  | error pr =>
    obtain ⟨e, stops'⟩ := pr
    rw [ham] at ham0
    simpa [amState] using ham0
  | ok pr =>
    obtain ⟨stops1, locks⟩ := pr
    rw [ham] at ham0
    simp only [amState] at ham0
    cases hsd : parseDate plan.start_date with
    | error e => exact ham0
    | ok start =>
      cases hpre : plan.stops[idx]? with
      | none =>
        have hlen1 : stops1.length = plan.stops.length := by
          have := @applyManualGo_length mm (frozenSet plan) plan.stops 0
          rw [ham] at this
          simpa [amState] using this
        have hidxge : plan.stops.length ≤ idx := List.getElem?_eq_none_iff.mp hpre
        show (swState (sweepGo cfg (frozenSet plan) (fun i => decide (i ∈ locks))
          0 none start stops1))[idx]? = none
        refine List.getElem?_eq_none ?_
        rw [sweepGo_length, hlen1]
        exact hidxge
      | some spre =>
        have hfro : frozenSet plan idx = true := by
          unfold frozenSet
          rw [hpre]
          unfold frozenIdx
          have hmem : idx / plan.route.length ∈ plan.frozen_rows := by
            rw [hrow]; exact hr
          rcases hfull idx spre hpre hrow with ⟨h1, h2⟩ | h3
          · simp [hmem, h1, h2]
          · simp [hmem, h3]
        have hin : stops1[idx]? = some spre := by rw [ham0, hpre]
        have := @sweepGo_frame cfg (frozenSet plan) (fun i => decide (i ∈ locks))
          stops1 0 none start idx spre hin (Or.inr (by simpa using hfro))
        exact this

/-- Witness for C5: on the four-stop `framePlan` with frozen period 0 and a
batch edit at index 2 (outside the period), stop 1 is unchanged. -/
theorem frozen_period_frame_witness :
    (update_plan_from_manual_table abCfg framePlan
      (fun i => if i = 2 then some (.date 20, .date 21) else none)).state.stops[1]?
      = framePlan.stops[1]? := by
  refine frozen_period_frame abCfg framePlan _ 0 (by decide) ?_ ?_ 1 (by decide)
  · intro idx s hidx hrow
    have hlen : framePlan.route.length = 2 := rfl
    rw [hlen] at hrow
    have hlt : idx < 2 := by omega
    rcases idx with _ | _ | n
    · simp only [framePlan, List.getElem?_cons_zero, Option.some.injEq] at hidx
      subst hidx
      left
      exact ⟨rfl, rfl⟩
    · simp only [framePlan, List.getElem?_cons_succ, List.getElem?_cons_zero,
        Option.some.injEq] at hidx
      subst hidx
      left
      exact ⟨rfl, rfl⟩
    · omega
  · intro idx hrow
    have hlen : framePlan.route.length = 2 := rfl
    rw [hlen] at hrow
    have hne : idx ≠ 2 := by omega
    simp [hne]

/-- The anchoring batch edit used against C4: stop 1 is re-dated to
2025-12-01/2025-12-02 (days −31/−30), before stop 0's departure. -/
def mmAnchor : Nat → Option (DStr × DStr) :=
  fun i => if i = 1 then some (DStr.date (-31), DStr.date (-30)) else none

/-- **C4** counterexample.  The claim asserts `arrival[j] ≥ departure[i]`
for consecutive non-skipped stops after every successful batch pass.  On
the plan generated by `create_plan` in the spec's scenario, the batch edit
anchoring stop 1 to days −31/−30 passes every validation (both dates
present, departure ≥ arrival within the stop), the pass succeeds, and the
result has `arrival[1] = −31 < 1 = departure[0]` with stops 0 and 1
adjacent and non-skipped: anchored stops are never checked against the
previous departure. -/
theorem anchored_stop_breaks_monotonicity :
    create_plan scenCfg "ship" scenRoute (DStr.date 0) 1 400 =
      .ok (some scenPlan) ∧
    (update_plan_from_manual_table scenCfg scenPlan mmAnchor).isOk = true ∧
    (update_plan_from_manual_table scenCfg scenPlan mmAnchor).state.stops[0]? =
      some ⟨"Vladivostok", DStr.date 0, DStr.date 1, false⟩ ∧
    (update_plan_from_manual_table scenCfg scenPlan mmAnchor).state.stops[1]? =
      some ⟨"Korsakov", DStr.date (-31), DStr.date (-30), false⟩ ∧
    ((-31 : Int) < 1) := by
  refine ⟨rfl, by decide, by decide, by decide, by decide⟩

/-- **C4** (corrected).  (a) Every plan produced by `create_plan` satisfies
`arrival[i+1] ≥ departure[i]` for all adjacent stops.  (b) After every
successful `update_plan_from_manual_table` pass, consecutive non-skipped
stops `i < j` with only skipped stops between them satisfy
`arrival[j] ≥ departure[i]` **provided stop `j` was re-derived by the
pass** — its period is not frozen and it is not a key of the edit batch.
(The counterexample above shows the proviso is necessary: an anchored
stop may be dated before the previous departure.) -/
theorem chain_monotonicity_amended :
    (∀ (cfg : Config) (ship : String) (route : List String) (sd : DStr)
       (pid fuel : Nat) (plan : Plan) (i : Nat) (si sj : Stop),
       create_plan cfg ship route sd pid fuel = .ok (some plan) →
       plan.stops[i]? = some si → plan.stops[i + 1]? = some sj →
       ∃ di aj, si.departure = .date di ∧ sj.arrival = .date aj ∧ di ≤ aj)
    ∧ (∀ (cfg : Config) (plan : Plan) (mm : Nat → Option (DStr × DStr))
         (q : Plan) (i j : Nat) (si sj : Stop),
        update_plan_from_manual_table cfg plan mm = .ok q →
        i < j → q.stops[i]? = some si → q.stops[j]? = some sj →
        si.skipped = false → sj.skipped = false →
        (∀ (m : Nat) (t : Stop), i < m → m < j → q.stops[m]? = some t →
          t.skipped = true) →
        j / plan.route.length ∉ plan.frozen_rows →
        mm j = none →
        ∃ di aj, si.departure = .date di ∧ sj.arrival = .date aj ∧ di ≤ aj) := by
  constructor
  · intro cfg ship route sd pid fuel plan i si sj h hi hj
    obtain ⟨start, _, _, _, _, hchain⟩ := create_plan_fields h
    exact chainFrom_adjacent cfg plan.stops none start hchain i si sj hi hj
  · intro cfg plan mm q i j si sj hupd hij hi hj hsi hsj hbet hfr hmm
    obtain ⟨stops1, locks, start, stops2, ham, hsd, hsw, rfl⟩ := update_ok_inv hupd
    obtain ⟨A, B, C⟩ := sweepGo_chain stops1 0 none start stops2 hsw
    refine C i j si sj hij hi hj hsi hsj hbet ?_ ?_
    · rw [Nat.zero_add]
      unfold frozenSet
      cases hpre : plan.stops[j]? with
      | none => rfl
      | some t =>
        unfold frozenIdx
        simp [hfr]
    · rw [Nat.zero_add]
      have hnot : j ∉ locks := by
        intro hmem
        have := ((applyManualGo_locks plan.stops 0 stops1 locks ham).1 j hmem).2
        rw [hmm] at this
        simp at this
      simp [hnot]

/-- Witness for C4: part (a) at the scenario plan's first pair, and part
(b) on a successful empty-batch pass over the dated two-stop plan. -/
theorem chain_monotonicity_amended_witness :
    (∃ di aj,
      (Stop.mk "Vladivostok" (DStr.date 0) (DStr.date 1) false).departure =
        DStr.date di ∧
      (Stop.mk "Korsakov" (DStr.date 3) (DStr.date 4) false).arrival =
        DStr.date aj ∧ di ≤ aj) ∧
    (∃ di aj,
      (Stop.mk "A" (DStr.date 0) (DStr.date 1) false).departure =
        DStr.date di ∧
      (Stop.mk "B" (DStr.date 3) (DStr.date 4) false).arrival =
        DStr.date aj ∧ di ≤ aj) := by
  constructor
  · exact chain_monotonicity_amended.1 scenCfg "ship" scenRoute (DStr.date 0)
      1 400 scenPlan 0 ⟨"Vladivostok", DStr.date 0, DStr.date 1, false⟩
      ⟨"Korsakov", DStr.date 3, DStr.date 4, false⟩ rfl rfl rfl
  · exact chain_monotonicity_amended.2 abCfg abPlan (fun _ => none) abPlan 0 1
      ⟨"A", DStr.date 0, DStr.date 1, false⟩
      ⟨"B", DStr.date 3, DStr.date 4, false⟩ (by decide) (by omega) rfl rfl
      rfl rfl (fun m t h1 h2 _ => (by omega : False).elim) (by decide) rfl

theorem shiftStop_zero {t : Stop}
    (h : ∃ a dd, t.arrival = .date a ∧ t.departure = .date dd) :
    shiftStop 0 t = t := by
  obtain ⟨a, dd, ha, hdd⟩ := h
  cases t
  simp only at ha hdd
  subst ha
  subst hdd
  simp [shiftStop, dateVal]

/-- **C7** (confirmed).  On a fully dated plan, `manual_update_stop` with
`propagate = true`, a valid index and valid new dates succeeds; every
earlier stop is unchanged; the edited stop keeps each field that was not
supplied; and every following stop is shifted uniformly by the day delta
between new and old departure, falling back to the arrival delta when the
departure did not change (`shiftStop` adds the delta to both dates).  In
the claim's example, editing stop 1's departure from day 4 (2026-01-05) to
day 9 (2026-01-10) shifts every later stop forward 5 days. -/
theorem manual_update_propagate_shift :
    ∀ (plan : Plan) (i : Nat) (s : Stop) (arrival departure : DStr)
      (oa od na nd : Int),
      (∀ t ∈ plan.stops, ∃ a dd, t.arrival = .date a ∧ t.departure = .date dd) →
      plan.stops[i]? = some s →
      s.arrival = .date oa → s.departure = .date od →
      ((arrival = .empty ∧ na = oa) ∨ arrival = .date na) →
      ((departure = .empty ∧ nd = od) ∨ departure = .date nd) →
      na ≤ nd →
      ∃ q, manual_update_stop plan i arrival departure true = .ok q ∧
        q.stops.length = plan.stops.length ∧
        (∀ k : Nat, k < i → q.stops[k]? = plan.stops[k]?) ∧
        q.stops[i]? = some { s with arrival := DStr.date na, departure := DStr.date nd } ∧
        (∀ (k : Nat) (t : Stop), i < k → plan.stops[k]? = some t →
          q.stops[k]? =
            some (shiftStop (if nd - od = 0 then na - oa else nd - od) t)) := by
  intro plan i s arrival departure oa od na nd hdated hi hoa hod hna hnd hle
  obtain ⟨hlt, _⟩ := List.getElem?_eq_some_iff.mp hi
  rw [manual_update_stop_eq hi hoa hod hna hnd (by omega) true]
  by_cases hz : (if nd - od = 0 then na - oa else nd - od) = 0
  · rw [if_neg (by simp [hz])]
    refine ⟨_, rfl, ?_, ?_, ?_, ?_⟩
    · simp
    · intro k hk
      exact List.getElem?_set_ne (by omega)
    · exact List.getElem?_set_self (by simpa using hlt)
    · intro k t hik hk
      rw [hz]
      rw [List.getElem?_set_ne (by omega), hk]
      rw [shiftStop_zero (hdated t (List.mem_iff_getElem?.mpr ⟨k, hk⟩))]
  · rw [if_pos ⟨rfl, hz⟩]
    have hdrop : ∀ t ∈ (plan.stops.set i { s with arrival := DStr.date na, departure := DStr.date nd }).drop (i + 1),
        ∃ a dd, t.arrival = .date a ∧ t.departure = .date dd := by
      intro t ht
      obtain ⟨n, hn⟩ := List.mem_iff_getElem?.mp ht
      rw [List.getElem?_drop] at hn
      rw [List.getElem?_set_ne (by omega)] at hn
      exact hdated t (List.mem_iff_getElem?.mpr ⟨_, hn⟩)
    rw [applyShiftGo_dated _ hdrop]
    have hlentake : ((plan.stops.set i { s with arrival := DStr.date na, departure := DStr.date nd }).take (i + 1)).length = i + 1 := by
      simp
      omega
    refine ⟨_, rfl, ?_, ?_, ?_, ?_⟩
    · simp
      omega
    · intro k hk
      rw [List.getElem?_append_left (by rw [hlentake]; omega)]
      rw [List.getElem?_take_of_lt (by omega)]
      exact List.getElem?_set_ne (by omega)
    · rw [List.getElem?_append_left (by rw [hlentake]; omega)]
      rw [List.getElem?_take_of_lt (by omega)]
      exact List.getElem?_set_self (by simpa using hlt)
    · intro k t hik hk
      rw [List.getElem?_append_right (by rw [hlentake]; omega)]
      rw [hlentake]
      rw [List.getElem?_map]
      rw [List.getElem?_drop]
      have harith : i + 1 + (k - (i + 1)) = k := by omega
      rw [harith]
      rw [List.getElem?_set_ne (by omega), hk]
      rfl

/-- Witness for C7: the claim's scenario on a four-stop dated plan —
editing stop 1's departure to day 9 (2026-01-10) shifts stops 2 and 3
forward by 5 days and leaves stop 0 and stop 1's arrival unchanged. -/
theorem manual_update_propagate_shift_witness :
    ∃ q, manual_update_stop shiftPlan 1 .empty (DStr.date 9) true = .ok q ∧
      q.stops[0]? = some ⟨"A", DStr.date 0, DStr.date 1, false⟩ ∧
      q.stops[1]? = some ⟨"B", DStr.date 3, DStr.date 9, false⟩ ∧
      q.stops[2]? = some ⟨"A", DStr.date 11, DStr.date 12, false⟩ ∧
      q.stops[3]? = some ⟨"B", DStr.date 14, DStr.date 15, false⟩ := by
  have hdated : ∀ t ∈ shiftPlan.stops,
      ∃ a dd, t.arrival = .date a ∧ t.departure = .date dd := by
    intro t ht
    have hm : t = (⟨"A", DStr.date 0, DStr.date 1, false⟩ : Stop) ∨
        t = ⟨"B", DStr.date 3, DStr.date 4, false⟩ ∨
        t = ⟨"A", DStr.date 6, DStr.date 7, false⟩ ∨
        t = ⟨"B", DStr.date 9, DStr.date 10, false⟩ := by
      simpa [shiftPlan] using ht
    rcases hm with rfl | rfl | rfl | rfl
    · exact ⟨0, 1, rfl, rfl⟩
    · exact ⟨3, 4, rfl, rfl⟩
    · exact ⟨6, 7, rfl, rfl⟩
    · exact ⟨9, 10, rfl, rfl⟩
  obtain ⟨q, hq, hlen, hbefore, hat, hafter⟩ :=
    manual_update_propagate_shift shiftPlan 1
      ⟨"B", DStr.date 3, DStr.date 4, false⟩ .empty (DStr.date 9) 3 4 3 9
      hdated rfl rfl rfl (Or.inl ⟨rfl, rfl⟩) (Or.inr rfl) (by omega)
  refine ⟨q, hq, ?_, ?_, ?_, ?_⟩
  · rw [hbefore 0 (by omega)]
    rfl
  · exact hat
  · have h2 := hafter 2 ⟨"A", DStr.date 6, DStr.date 7, false⟩ (by omega) rfl
    rw [h2]
    norm_num [shiftStop, dateVal]
  · have h3 := hafter 3 ⟨"B", DStr.date 9, DStr.date 10, false⟩ (by omega) rfl
    rw [h3]
    norm_num [shiftStop, dateVal]

/-- **C9** (confirmed).  If some stop after index `i` lacks a date (for
example a skipped stop), `manual_update_stop` with `propagate = true` and
a nonzero resulting day shift raises (parsing of the empty field fails in
`_apply_shift`) instead of returning a shifted plan: the single-edit
propagation path only completes on plans whose following stops are all
fully dated. -/
theorem propagate_fails_on_undated_tail :
    ∀ (plan : Plan) (i : Nat) (s : Stop) (arrival departure : DStr)
      (oa od na nd : Int),
      plan.stops[i]? = some s →
      s.arrival = .date oa → s.departure = .date od →
      ((arrival = .empty ∧ na = oa) ∨ arrival = .date na) →
      ((departure = .empty ∧ nd = od) ∨ departure = .date nd) →
      na ≤ nd →
      (if nd - od = 0 then na - oa else nd - od) ≠ 0 →
      (∃ (k : Nat) (t : Stop), i < k ∧ plan.stops[k]? = some t ∧
        (t.arrival = .empty ∨ t.departure = .empty)) →
      (manual_update_stop plan i arrival departure true).isOk = false := by
  intro plan i s arrival departure oa od na nd hi hoa hod hna hnd hle hshift hbad
  rw [manual_update_stop_eq hi hoa hod hna hnd (by omega) true]
  rw [if_pos ⟨rfl, hshift⟩]
  obtain ⟨k, t, hik, hk, htbad⟩ := hbad
  have hbad' : ∃ t ∈ (plan.stops.set i { s with arrival := DStr.date na, departure := DStr.date nd }).drop (i + 1),
      t.arrival.isDate = false ∨ t.departure.isDate = false := by
    refine ⟨t, ?_, ?_⟩
    · apply List.mem_iff_getElem?.mpr
      refine ⟨k - (i + 1), ?_⟩
      rw [List.getElem?_drop]
      have harith : i + 1 + (k - (i + 1)) = k := by omega
      rw [harith]
      rw [List.getElem?_set_ne (by omega)]
      exact hk
    · rcases htbad with h | h
      · left; rw [h]; rfl
      · right; rw [h]; rfl
  obtain ⟨e, l', heq⟩ := applyShiftGo_bad _ hbad'
  rw [heq]
  rfl

/-- Witness for C9: on `gapPlan` (stop 1 skipped, dates empty), shifting
stop 0's departure forward raises instead of propagating. -/
theorem propagate_fails_on_undated_tail_witness :
    (manual_update_stop gapPlan 0 .empty (DStr.date 2) true).isOk = false := by
  refine propagate_fails_on_undated_tail gapPlan 0
    ⟨"A", DStr.date 0, DStr.date 1, false⟩ .empty (DStr.date 2) 0 1 0 2
    rfl rfl rfl (Or.inl ⟨rfl, rfl⟩) (Or.inr rfl) (by omega) (by norm_num)
    ⟨1, ⟨"B", DStr.empty, DStr.empty, true⟩, by omega, rfl, Or.inl rfl⟩
